import Mathlib

/-!
Verification development for the striker_polymarket_api repository.

The Python sources are shallowly embedded as Lean definitions:
pure record manipulation becomes functions over lists, HTTP traffic
becomes an oracle (a function from call index to response outcome),
and loops become fuel-indexed structural recursion whose fuel-exhaustion
value coincides with, or is distinguished from, the loop's own exit value.
Money amounts and prices are rationals; timestamps are integers.
-/

/-! ## Data model -/

/-- A trade as consumed by `calculate_clv` (rest.py): `price`, `size`, and
the raw `timestamp` in epoch milliseconds. -/
structure Trade where
  price : ℚ
  size : ℚ
  timestamp : ℤ
deriving DecidableEq, Repr

/-- A price-history entry (price_history.py): field `t` is an epoch-second
timestamp, field `p` is the price. -/
structure PriceEntry where
  t : ℤ
  p : ℚ
deriving DecidableEq, Repr

/-- A position record as produced by the subgraph pager
(fetch_subgraph.py).  Only the fields the verified claims depend on are
kept: an identifying payload and the `balance` field, which may be absent
from the raw dictionary (`none`). -/
structure Position where
  pid : ℕ
  balance : Option String
deriving DecidableEq, Repr

/-- A PNL record returned by the REST positions endpoints
(fetch_subgraph.py): its `conditionId` plus an identifying payload. -/
structure PnlRecord where
  conditionId : ℕ
  payload : ℕ
deriving DecidableEq, Repr

/-! ## CLV aggregator (rest.py, `calculate_clv`) -/

/-- Modelled from the spec: `safe_divide` is imported by rest.py from a
`helpers` module whose definition is not among the sources here.  The spec
says it uses "a safe-division convention that returns a defined sentinel
(not an error) when a denominator is exactly zero"; we use the sentinel 0.
All theorems that depend on `safe_divide` carry nonzero-denominator
hypotheses, so the choice of sentinel does not matter to them. -/
def safe_divide (a b : ℚ) : ℚ := if b = 0 then 0 else a / b

/-- `trades_df['timestamp'].astype(float) // 1000` of rest.py: the
millisecond timestamp floor-divided by 1000.  Lean's `Int` division is
Euclidean, which agrees with Python floor division for the positive
divisor 1000. -/
def tradeSeconds (tr : Trade) : ℤ := tr.timestamp / 1000

/-- `group_df[group_df['timestamp_seconds'] < start_time]` of rest.py:
the trades of one (conditionId, asset) group whose converted timestamp is
strictly before the position's start time. -/
def preMarketTrades (group : List Trade) (start_time : ℤ) : List Trade :=
  group.filter (fun tr => tradeSeconds tr < start_time)

/-- Outcome of the per-group body of the `calculate_clv` loop: either a
computed CLV record, or one of the recorded skip reasons. -/
inductive ClvOutcome where
  | result (avg_price price_clv odds_clv closing_price : ℚ)
  | closing_price_is_nan
  | sem_trades_pre_market
deriving DecidableEq, Repr

/-- The body of the per-(conditionId, asset) loop of `calculate_clv`
(rest.py lines 86-137) for one group of trades.  A NaN closing price is
modelled as `none`.  The pandas steps become: NaN check, filter to
pre-market trades, total-size-zero check, then the volume-weighted
average entry price and the two CLV variants. -/
def calculate_clv_group (group : List Trade) (start_time : ℤ)
    (closing_price : Option ℚ) : ClvOutcome :=
  match closing_price with
  | none => ClvOutcome.closing_price_is_nan
  | some cp =>
    let filtered := preMarketTrades group start_time
    let total_size := (filtered.map Trade.size).sum
    if total_size = 0 then ClvOutcome.sem_trades_pre_market
    else
      let avg_price := (filtered.map (fun tr => tr.size * tr.price)).sum / total_size
      ClvOutcome.result avg_price (cp - avg_price)
        (safe_divide 1 avg_price - safe_divide 1 cp) cp

/-! ## Reference price extraction (price_history.py, `extract_match_start_price`) -/

/-- `extract_match_start_price` of price_history.py.  A missing or
history-less payload is `none`; `match_ts` is the match-start instant in
epoch seconds (`int(match_datetime.timestamp())`); the look-back window is
`max_hours_before` hours.  The source filters the history to the entries
inside `[match_ts - max_hours_before*3600, match_ts]`, sorts them by
timestamp descending (`sorted(..., reverse=True)`), and returns the head. -/
def extract_match_start_price (price_history : Option (List PriceEntry))
    (match_ts : ℤ) (max_hours_before : ℤ) : Option PriceEntry :=
  match price_history with
  | none => none
  | some history =>
    if history = [] then none
    else
      let min_ts := match_ts - max_hours_before * 3600
      let valid_entries := history.filter
        (fun entry => decide (min_ts ≤ entry.t) && decide (entry.t ≤ match_ts))
      if valid_entries = [] then none
      else (valid_entries.mergeSort (fun a b => decide (b.t ≤ a.t))).head?

/-! ## Position splitting (fetch_subgraph.py, `split_positions`) -/

/-- `pos.get("balance", "0")` of `split_positions`: the balance string,
defaulting to "0" when the field is absent. -/
def balanceStr (pos : Position) : String := pos.balance.getD "0"

/-- `split_positions` of fetch_subgraph.py: one forward pass over the raw
positions, appending each to `closed` when its balance string is exactly
"0" and to `active` otherwise.  Returns `(active, closed)`. -/
def split_positions : List Position → List Position × List Position
  | [] => ([], [])
  | pos :: rest =>
    let parts := split_positions rest
    if balanceStr pos = "0" then (parts.1, pos :: parts.2)
    else (pos :: parts.1, parts.2)

/-! ## Gated market fetcher (fetch_clv.py) -/

/-- Outcome of one `requests.get` call inside
`fetch_trades_for_single_market_page`: either the call raised a
`requests.exceptions.RequestException`, or it produced a response with a
status code and (for 200 responses) a parsed list of trades. -/
inductive ReqResult where
  | exn
  | resp (status_code : ℕ) (body : List ℕ)
deriving DecidableEq, Repr

/-- Observable events of one single-page fetch while it interacts with the
shared semaphore: gate acquisition and release, an HTTP request attempt,
and a sleep of a given whole number of seconds. -/
inductive GateEvent where
  | acquire
  | request
  | sleep (d : ℕ)
  | release
deriving DecidableEq, Repr

/-- The `while internal_retry_count <= max_retries` loop of
`fetch_trades_for_single_market_page` (fetch_clv.py lines 37-84), run
against an oracle `resp` giving the outcome of the `attempt`-th HTTP call.
Returns the emitted events together with the `(trades, success)` result.
`fuel` only bounds the recursion; with the fuel used below it never runs
out, and its exhaustion value coincides with the loop's own
fall-through `return ([], False)`. -/
def single_page_loop (resp : ℕ → ReqResult) (max_retries : ℕ) :
    (attempt retry fuel : ℕ) → List GateEvent × (List ℕ × Bool)
  | _, _, 0 => ([], ([], false))
  | attempt, retry, fuel + 1 =>
    if retry ≤ max_retries then
      match resp attempt with
      | ReqResult.exn =>
        if max_retries < retry + 1 then ([GateEvent.request], ([], false))
        else
          let next := single_page_loop resp max_retries (attempt + 1) (retry + 1) fuel
          (GateEvent.request :: GateEvent.sleep 5 :: next.1, next.2)
      | ReqResult.resp status_code body =>
        if status_code = 200 then ([GateEvent.request], (body, true))
        else if status_code = 429 ∨ status_code = 408 then
          if max_retries < retry + 1 then ([GateEvent.request], ([], false))
          else
            let delay := min (10 + 2 ^ (retry + 1)) 30
            let next := single_page_loop resp max_retries (attempt + 1) (retry + 1) fuel
            (GateEvent.request :: GateEvent.sleep delay :: next.1, next.2)
        else ([GateEvent.request], ([], false))
    else ([], ([], false))

/-- `fetch_trades_for_single_market_page` of fetch_clv.py: acquire the
semaphore once, run the retry loop, and release the semaphore in the
`finally` block.  The emitted event trace therefore brackets the loop's
events between one `acquire` and one `release`. -/
def fetch_trades_for_single_market_page (resp : ℕ → ReqResult)
    (max_retries : ℕ) : List GateEvent × (List ℕ × Bool) :=
  let run := single_page_loop resp max_retries 0 0 (max_retries + 2)
  (GateEvent.acquire :: run.1 ++ [GateEvent.release], run.2)

/-- An event trace that holds the gate correctly: it starts with exactly
one `acquire`, ends with exactly one `release`, and contains neither in
between. -/
def Bracketed (evs : List GateEvent) : Prop :=
  ∃ mid, evs = GateEvent.acquire :: mid ++ [GateEvent.release] ∧
    GateEvent.acquire ∉ mid ∧ GateEvent.release ∉ mid

/-- One logical thread of the market fetcher: whether it currently holds
the gate, and the events it has yet to perform. -/
structure GateThread where
  holding : Bool
  events : List GateEvent
deriving DecidableEq, Repr

/-- A snapshot of the gated system: the semaphore's remaining permit
count and the pool of threads. -/
structure GateSystem where
  count : ℕ
  threads : List GateThread
deriving DecidableEq, Repr

/-- A thread consistent with gate bracketing: while not holding it is
either finished or about to run a full bracketed trace; while holding,
its remaining events end with the single `release`. -/
def ThreadOK (th : GateThread) : Prop :=
  if th.holding then
    ∃ mid, th.events = mid ++ [GateEvent.release] ∧
      GateEvent.acquire ∉ mid ∧ GateEvent.release ∉ mid
  else th.events = [] ∨ Bracketed th.events

/-- Interleaving semantics of the market-fetcher threads sharing one
`threading.Semaphore`: any thread may perform its next event; `acquire`
blocks unless a permit is available (`0 < count`) and consumes one;
`release` returns one (the Python semaphore never blocks a release);
requests and sleeps leave the permit count unchanged. -/
inductive GateStep : GateSystem → GateSystem → Prop where
  | acquire (count : ℕ) (pre post : List GateThread) (b : Bool) (rest : List GateEvent)
      (hcount : 0 < count) :
      GateStep ⟨count, pre ++ ⟨b, GateEvent.acquire :: rest⟩ :: post⟩
        ⟨count - 1, pre ++ ⟨true, rest⟩ :: post⟩
  | release (count : ℕ) (pre post : List GateThread) (b : Bool) (rest : List GateEvent) :
      GateStep ⟨count, pre ++ ⟨b, GateEvent.release :: rest⟩ :: post⟩
        ⟨count + 1, pre ++ ⟨false, rest⟩ :: post⟩
  | request (count : ℕ) (pre post : List GateThread) (b : Bool) (rest : List GateEvent) :
      GateStep ⟨count, pre ++ ⟨b, GateEvent.request :: rest⟩ :: post⟩
        ⟨count, pre ++ ⟨b, rest⟩ :: post⟩
  | sleep (count : ℕ) (pre post : List GateThread) (b : Bool) (d : ℕ) (rest : List GateEvent) :
      GateStep ⟨count, pre ++ ⟨b, GateEvent.sleep d :: rest⟩ :: post⟩
        ⟨count, pre ++ ⟨b, rest⟩ :: post⟩

/-- The initial system: `cap` permits (`Semaphore(simultaneous_requests)`
in `fetch_clv`) and one not-yet-started thread per planned trace. -/
def initGateSystem (cap : ℕ) (traces : List (List GateEvent)) : GateSystem :=
  ⟨cap, traces.map (fun t => ⟨false, t⟩)⟩

/-- States reachable from the initial system by any interleaving. -/
def GateReachable (cap : ℕ) (traces : List (List GateEvent)) (s : GateSystem) : Prop :=
  Relation.ReflTransGen GateStep (initGateSystem cap traces) s

/-- The number of threads currently holding the gate. -/
def holdingCount (s : GateSystem) : ℕ :=
  (s.threads.filter (fun th => th.holding)).length

/-! ## Two-phase market orchestration (fetch_clv.py) -/

/-- Per-market outcome of `fetch_trades_for_market_complete` as observed
by `_run_market_processing_loop`: the future either resolves to
`(trades, success)` or raises. -/
inductive MarketOutcome where
  | ok (trades : List ℕ) (success : Bool)
  | exn
deriving DecidableEq, Repr

/-- A trade tagged by the orchestrator with the market it was requested
for (`trade['market_id_v3'] = result_market_id` in fetch_clv.py). -/
structure TaggedTrade where
  market_id_v3 : ℕ
  trade : ℕ
deriving DecidableEq, Repr

/-- `_run_market_processing_loop` of fetch_clv.py: process every market,
tagging and accumulating the trades of successful markets and
accumulating the ids of markets that failed (controlled failure or raised
exception).  Completion order of the thread pool is modelled as list
order.  `fetch` is the per-market outcome oracle. -/
def run_market_processing_loop (fetch : ℕ → MarketOutcome)
    (markets_to_process : List ℕ) : List TaggedTrade × List ℕ :=
  markets_to_process.foldl
    (fun acc market_id =>
      match fetch market_id with
      | MarketOutcome.ok trades true =>
          (acc.1 ++ trades.map (fun tr => ⟨market_id, tr⟩), acc.2)
      | MarketOutcome.ok _ false => (acc.1, acc.2 ++ [market_id])
      | MarketOutcome.exn => (acc.1, acc.2 ++ [market_id]))
    ([], [])

/-- `fetch_all_trades_parallel` of fetch_clv.py: run the processing loop
over all condition ids, and if any market failed, run the same loop once
more over exactly the failed subset (the second pass may observe
different per-market outcomes, hence the second oracle).  The markets
still failing after the second pass are only printed; the function's
return value is the merged trade list alone. -/
def fetch_all_trades_parallel (fetch1 fetch2 : ℕ → MarketOutcome)
    (condition_ids : List ℕ) : List TaggedTrade :=
  let firstPass := run_market_processing_loop fetch1 condition_ids
  if firstPass.2 ≠ [] then
    let secondPass := run_market_processing_loop fetch2 firstPass.2
    firstPass.1 ++ secondPass.1
  else firstPass.1

/-! ## Offset pager (fetch.py, `page` / `fetch_range` / `all_data_parallel`) -/

/-- Outcome of one `page(...)` call of fetch.py as seen by `fetch_range`:
a 200 response with its record list (`success` with data), a 429
(`"Rate limited"`, retryable), or any other failure (non-2xx status or
exception, non-retryable). -/
inductive FPage where
  | ok (data : List ℕ)
  | rateLimited
  | failed
deriving DecidableEq, Repr

/-- The mutable state of one `fetch_range` worker: the accumulated
records, the current offset, the (monotonically shrunk) request limit,
and the number of `page` calls made so far (the oracle index). -/
structure FRState where
  all_data : List ℕ
  current_offset : ℕ
  max_limit : ℕ
  calls : ℕ
deriving DecidableEq, Repr

/-- Result of the inner `while retry_count < max_retries` loop of
`fetch_range`: `advanced` after a successful page (with trimming already
applied), `exhausted` after the rate-limit budget ran out (the outer
loop then breaks), or `finished` for the immediate `return all_data`
paths (empty success page or non-retryable failure). -/
inductive FRInner where
  | advanced (st : FRState)
  | exhausted (st : FRState)
  | finished (data : List ℕ)
deriving DecidableEq, Repr

/-- The inner retry loop of `fetch_range` (fetch.py lines 101-144) with
its fixed budget of 5 retries; `fuel` is `5 - retry_count`.  On a
successful non-empty page the records are appended and the offset is
advanced by the number of records actually returned; then, for a bounded
worker (`process_id < num_processes`) whose offset overran its boundary,
the excess is trimmed from the tail of the accumulator and the offset is
clamped to the boundary. -/
def fr_inner (pages : ℕ → FPage) (process_id num_processes end_offset : ℕ) :
    FRState → (retry fuel : ℕ) → FRInner
  | st, _, 0 => FRInner.exhausted st
  | st, retry, fuel + 1 =>
    match pages st.calls with
    | FPage.ok data =>
      if data = [] then FRInner.finished st.all_data
      else
        let st1 : FRState :=
          { st with all_data := st.all_data ++ data,
                    current_offset := st.current_offset + data.length,
                    calls := st.calls + 1 }
        if process_id < num_processes ∧ end_offset < st1.current_offset then
          let excess := st1.current_offset - end_offset
          let trimmed :=
            if excess ≤ st1.all_data.length
            then st1.all_data.take (st1.all_data.length - excess)
            else []
          FRInner.advanced { st1 with all_data := trimmed, current_offset := end_offset }
        else FRInner.advanced st1
    | FPage.rateLimited =>
      if 5 ≤ retry + 1 then FRInner.exhausted { st with calls := st.calls + 1 }
      else fr_inner pages process_id num_processes end_offset
        { st with calls := st.calls + 1 } (retry + 1) fuel
    | FPage.failed => FRInner.finished st.all_data

/-- The outer `while True` loop of `fetch_range` (fetch.py lines 86-159).
Each iteration first applies the bounded worker's boundary guard and
limit clamping, then runs the inner retry loop, and then applies the
post-loop break conditions.  `fuel` bounds the number of outer
iterations (the real loop can genuinely run forever on an endless
supply of non-empty pages for the unbounded worker). -/
def fr_outer (pages : ℕ → FPage) (process_id num_processes end_offset : ℕ) :
    FRState → ℕ → List ℕ
  | st, 0 => st.all_data
  | st, fuel + 1 =>
    if process_id < num_processes ∧ end_offset ≤ st.current_offset then st.all_data
    else
      let st0 :=
        if process_id < num_processes
        then { st with max_limit := min st.max_limit (end_offset - st.current_offset) }
        else st
      match fr_inner pages process_id num_processes end_offset st0 0 5 with
      | FRInner.finished data => data
      | FRInner.exhausted st1 => st1.all_data
      | FRInner.advanced st1 =>
        if process_id < num_processes ∧ end_offset ≤ st1.current_offset then st1.all_data
        else fr_outer pages process_id num_processes end_offset st1 fuel

/-- `fetch_range` of fetch.py for one worker: start from the assigned
`start_offset` with an empty accumulator and the default `max_limit` of
500. -/
def fetch_range (pages : ℕ → FPage) (start_offset end_offset process_id
    num_processes fuel : ℕ) : List ℕ :=
  fr_outer pages process_id num_processes end_offset
    ⟨[], start_offset, 500, 0⟩ fuel

/-- The window assignment of `all_data_parallel` (fetch.py lines 176-181):
worker `i` (0-based) gets `[i*records_per_process, (i+1)*records_per_process)`
with worker identity `i + 1`. -/
def all_data_parallel_ranges (num_processes records_per_process : ℕ) :
    List (ℕ × ℕ × ℕ) :=
  (List.range num_processes).map
    (fun i => (i * records_per_process, (i + 1) * records_per_process, i + 1))

/-! ## Subgraph cursor pager (fetch_subgraph.py) -/

/-- Result of one `query_graphql` call as seen by `get_user_positions`:
a transport error (returned as `{"error": ...}`, never raised), a
response with a usable `data` payload, or a response without one
(e.g. a GraphQL-level error). -/
inductive GraphQLResult where
  | error (msg : String)
  | payload (userBalances : List Position)
  | nodata
deriving DecidableEq, Repr

/-- `get_user_positions` of fetch_subgraph.py applied to an already
obtained query result: an `error` key or an unusable `data` yields the
empty page; otherwise each raw balance record is transformed, with the
`balance` field defaulted to "0". -/
def get_user_positions (result : GraphQLResult) : List Position :=
  match result with
  | GraphQLResult.error _ => []
  | GraphQLResult.nodata => []
  | GraphQLResult.payload positions =>
      positions.map (fun pos => ⟨pos.pid, some (balanceStr pos)⟩)

/-- The `while True` pagination loop of `get_all_user_positions`
(fetch_subgraph.py lines 51-72), against an oracle `q` giving the query
result for each `skip` value.  An empty page stops; a page shorter than
`batch_size` stops after being kept; otherwise `skip` advances by
`batch_size`.  `fuel` bounds the iterations (a server that forever
returns full pages keeps the real loop running). -/
def get_all_user_positions_aux (q : ℕ → GraphQLResult) (batch_size : ℕ) :
    (skip fuel : ℕ) → List Position
  | _, 0 => []
  | skip, fuel + 1 =>
    let batch := get_user_positions (q skip)
    if batch = [] then []
    else if batch.length < batch_size then batch
    else batch ++ get_all_user_positions_aux q batch_size (skip + batch_size) fuel

/-- `get_all_user_positions` of fetch_subgraph.py: run the pagination
loop with `skip` starting at 0. -/
def get_all_user_positions (q : ℕ → GraphQLResult) (batch_size fuel : ℕ) :
    List Position :=
  get_all_user_positions_aux q batch_size 0 fuel

/-! ## Batched PNL fetch (fetch_subgraph.py, `_fetch_batch_pnl`) -/

/-- Outcome of one `requests.get` call inside `_fetch_batch_pnl`: a 200
response whose body parsed to a record list, a 200 response whose body
was not a list, a 429, any other status code, or a raised exception. -/
inductive PnlResp where
  | ok (data : List PnlRecord)
  | badBody
  | rateLimited
  | httpStatus (code : ℕ)
  | exn
deriving DecidableEq, Repr

/-- The `while True` loop of `_fetch_batch_pnl` (fetch_subgraph.py lines
157-221), against an oracle `resp` indexed by call number.  A 200 page is
appended; a short page, an empty or non-list body, or the offset reaching
the 10,000 cap ends the batch; a 429 or an unlisted error status or an
exception is retried up to `max_retries` with the source's backoff
sleeps; a status in the fatal set {400, 401, 403, 404} aborts at once.
`none` means the fuel ran out before the loop exited; every theorem
below either supplies sufficient fuel or holds for all fuel. -/
def fetch_batch_pnl_aux (resp : ℕ → PnlResp) (limit max_retries : ℕ) :
    (call offset retry_count : ℕ) → (batch_data : List PnlRecord) →
    (fuel : ℕ) → Option (List PnlRecord)
  | _, _, _, _, 0 => none
  | call, offset, retry_count, batch_data, fuel + 1 =>
    match resp call with
    | PnlResp.ok data =>
      if data = [] then some batch_data
      else
        let batch2 := batch_data ++ data
        if data.length < limit then some batch2
        else if 10000 ≤ offset + limit then some batch2
        else fetch_batch_pnl_aux resp limit max_retries
          (call + 1) (offset + limit) 0 batch2 fuel
    | PnlResp.badBody => some batch_data
    | PnlResp.rateLimited =>
      if max_retries ≤ retry_count + 1 then some batch_data
      else fetch_batch_pnl_aux resp limit max_retries
        (call + 1) offset (retry_count + 1) batch_data fuel
    | PnlResp.httpStatus code =>
      if code = 400 ∨ code = 401 ∨ code = 403 ∨ code = 404 then some batch_data
      else if max_retries ≤ retry_count + 1 then some batch_data
      else fetch_batch_pnl_aux resp limit max_retries
        (call + 1) offset (retry_count + 1) batch_data fuel
    | PnlResp.exn =>
      if max_retries ≤ retry_count + 1 then some batch_data
      else fetch_batch_pnl_aux resp limit max_retries
        (call + 1) offset (retry_count + 1) batch_data fuel

/-- `_fetch_batch_pnl` of fetch_subgraph.py: run the pagination loop from
offset 0 with an empty accumulator and a fresh retry budget. -/
def fetch_batch_pnl (resp : ℕ → PnlResp) (limit max_retries fuel : ℕ) :
    Option (List PnlRecord) :=
  fetch_batch_pnl_aux resp limit max_retries 0 0 0 [] fuel

/-! ## Backfill fetch (fetch_subgraph.py, `fetch_missing` /
`fetch_positions_from_rest`) -/

/-- Outcome of one `requests.get` call inside the per-id loop of
`fetch_missing`: a 200 list body, a 200 non-list body, a 429 (sleep 2s
and retry the same offset, with no retry bound), or any other status or
exception (break). -/
inductive MissingResp where
  | ok (data : List PnlRecord)
  | badBody
  | rateLimited
  | failed
deriving DecidableEq, Repr

/-- The inner `while True` loop of `fetch_missing` (fetch_subgraph.py
lines 333-372) for one condition id, against a per-call oracle: page size
500, offset capped at 10,000, unbounded 429 retries (hence the fuel),
and any other error ending the loop with the data collected so far. -/
def fetch_missing_single (resp : ℕ → MissingResp) :
    (call offset : ℕ) → (condition_data : List PnlRecord) → (fuel : ℕ) →
    List PnlRecord
  | _, _, condition_data, 0 => condition_data
  | call, offset, condition_data, fuel + 1 =>
    match resp call with
    | MissingResp.ok data =>
      if data = [] then condition_data
      else
        let acc2 := condition_data ++ data
        if data.length < 500 then acc2
        else if 10000 ≤ offset + 500 then acc2
        else fetch_missing_single resp (call + 1) (offset + 500) acc2 fuel
    | MissingResp.badBody => condition_data
    | MissingResp.rateLimited =>
      fetch_missing_single resp (call + 1) offset condition_data fuel
    | MissingResp.failed => condition_data

/-- `fetch_missing` of fetch_subgraph.py: for each missing condition id
run the single-id pager (with that id's oracle) and append whatever it
recovered. -/
def fetch_missing (resps : ℕ → ℕ → MissingResp) (missing : List ℕ)
    (fuel : ℕ) : List PnlRecord :=
  missing.foldl
    (fun additional_data condition_id =>
      let condition_data := fetch_missing_single (resps condition_id) 0 0 [] fuel
      if condition_data ≠ [] then additional_data ++ condition_data
      else additional_data)
    []

/-- A raw subgraph position as consumed by `fetch_positions_from_rest`:
only its optional `conditionId` matters here. -/
structure SubgraphPosition where
  conditionId : Option ℕ
deriving DecidableEq, Repr

/-- `fetch_positions_from_rest` of fetch_subgraph.py (without the final
market-metadata left-join, which only enriches records): collect the
unique condition ids, run the batched fetch, and - only when the batch
result is non-empty (an empty DataFrame has no `conditionId` column) -
compute the ids absent from the batch result and merge whatever the
single-id backfill recovers for them.  `batch` is the result of
`fetch_from_rest` on the id list; `resps` the backfill oracles. -/
def fetch_positions_from_rest (batch : List ℕ → List PnlRecord)
    (resps : ℕ → ℕ → MissingResp) (positions : List SubgraphPosition)
    (fuel : ℕ) : List PnlRecord :=
  let unique_condition_ids := (positions.filterMap SubgraphPosition.conditionId).dedup
  let df_rest := batch unique_condition_ids
  if df_rest ≠ [] then
    let found := df_rest.map PnlRecord.conditionId
    let missing := unique_condition_ids.filter (fun i => i ∉ found)
    if missing ≠ [] then df_rest ++ fetch_missing resps missing fuel
    else df_rest
  else df_rest

/-- Whether a per-market outcome counts as failed in
`_run_market_processing_loop`: everything except `(trades, True)`. -/
def marketFailed : MarketOutcome → Bool
  | MarketOutcome.ok _ true => false
  | _ => true

/-- The tagged trades one market contributes to the accumulator of
`_run_market_processing_loop`: its trades tagged with its id on success,
nothing otherwise. -/
def marketTrades (fetch : ℕ → MarketOutcome) (market_id : ℕ) : List TaggedTrade :=
  match fetch market_id with
  | MarketOutcome.ok trades true => trades.map (fun tr => ⟨market_id, tr⟩)
  | _ => []

/-! # Theorems -/

/-! ## C10: `split_positions` is an order-preserving partition -/

/-- C10: `split_positions` returns a partition of its input: the active
side is exactly the input subsequence whose balance string (with a
missing balance read as "0") differs from "0", the closed side exactly
the complementary subsequence, so every input position lands in exactly
one side with input order preserved, and together the two sides are a
permutation of the input. -/
theorem split_positions_partition (positions : List Position) :
    (split_positions positions).1 =
      positions.filter (fun pos => !(decide (balanceStr pos = "0"))) ∧
    (split_positions positions).2 =
      positions.filter (fun pos => decide (balanceStr pos = "0")) ∧
    ((split_positions positions).1 ++ (split_positions positions).2).Perm positions := by
  induction positions with
  | nil => exact ⟨rfl, rfl, List.Perm.refl _⟩
  | cons pos rest ih =>
    obtain ⟨h1, h2, h3⟩ := ih
    by_cases h : balanceStr pos = "0"
    · refine ⟨by simp [split_positions, h, h1], by simp [split_positions, h, h2], ?_⟩
      simpa [split_positions, h] using List.perm_middle.trans (h3.cons pos)
    · refine ⟨by simp [split_positions, h, h1], by simp [split_positions, h, h2], ?_⟩
      simpa [split_positions, h] using h3.cons pos

/-! ## C1: CLV computation per trade group -/

/-- C1 (counterexample to the claim as stated): a group with a defined
closing price and a trade strictly before the start time, but of size 0,
is not given a CLV result: `calculate_clv_group` records the
`sem_trades_pre_market` reason because the guard in the source is
`total_size == 0`, not the existence of a pre-start trade. -/
theorem calculate_clv_group_counterexample :
    tradeSeconds ⟨1/2, 0, 10⟩ < 30 ∧
    calculate_clv_group [⟨1/2, 0, 10⟩] 30 (some (11/20)) =
      ClvOutcome.sem_trades_pre_market := by
  constructor
  · decide
  · simp [calculate_clv_group, preMarketTrades, tradeSeconds]

/-- C1 (amended): for a trade group whose pre-start trades (millisecond
timestamp floor-divided by 1000 strictly less than the start time) have
nonzero total size - rather than merely one pre-start trade - and whose
closing price is defined, `calculate_clv_group` yields
`avg_entry_price = (Σ size·price) / (Σ size)` over exactly those trades,
`price_clv = closing - avg` and `odds_clv = 1/avg - 1/closing` (the
nonzero-denominator hypotheses make the safe-division sentinel moot). -/
theorem calculate_clv_group_correct (group : List Trade) (start_time : ℤ)
    (cp : ℚ)
    (hsize : ((preMarketTrades group start_time).map Trade.size).sum ≠ 0)
    (havg : ((preMarketTrades group start_time).map (fun tr => tr.size * tr.price)).sum /
      ((preMarketTrades group start_time).map Trade.size).sum ≠ 0)
    (hcp : cp ≠ 0) :
    calculate_clv_group group start_time (some cp) =
      ClvOutcome.result
        (((preMarketTrades group start_time).map (fun tr => tr.size * tr.price)).sum /
          ((preMarketTrades group start_time).map Trade.size).sum)
        (cp -
          ((preMarketTrades group start_time).map (fun tr => tr.size * tr.price)).sum /
            ((preMarketTrades group start_time).map Trade.size).sum)
        (1 /
          (((preMarketTrades group start_time).map (fun tr => tr.size * tr.price)).sum /
            ((preMarketTrades group start_time).map Trade.size).sum) -
          1 / cp)
        cp := by
  simp only [calculate_clv_group, safe_divide, if_neg hsize, if_neg havg, if_neg hcp]

/-- C1 (witness, the spec's own worked example): trades
(price 0.40, size 100, t=10 ms) and (price 0.60, size 50, t=20 ms) with
start time 30 and closing price 0.55 give an average entry price of
70/150 = 7/15, price_clv = 11/20 - 7/15 = 1/12 and
odds_clv = 15/7 - 20/11 = 25/77. -/
theorem calculate_clv_group_correct_witness :
    calculate_clv_group [⟨2/5, 100, 10⟩, ⟨3/5, 50, 20⟩] 30 (some (11/20)) =
      ClvOutcome.result (7/15) (1/12) (25/77) (11/20) := by
  have h := calculate_clv_group_correct [⟨2/5, 100, 10⟩, ⟨3/5, 50, 20⟩] 30 (11/20)
    (by norm_num [preMarketTrades, tradeSeconds])
    (by norm_num [preMarketTrades, tradeSeconds])
    (by norm_num)
  rw [h]
  norm_num [preMarketTrades, tradeSeconds, ClvOutcome.result.injEq]

/-! ## C4: reference price extraction -/

/-- The head of the descending-by-timestamp sort of a list is a member
that no other member exceeds in timestamp. -/
theorem head_mergeSort_desc (l : List PriceEntry) (e : PriceEntry)
    (h : (l.mergeSort (fun a b => decide (b.t ≤ a.t))).head? = some e) :
    e ∈ l ∧ ∀ x ∈ l, x.t ≤ e.t := by
  have hperm := List.mergeSort_perm l (fun a b => decide (b.t ≤ a.t))
  have hsorted :=
    @List.sorted_mergeSort PriceEntry (fun a b => decide (b.t ≤ a.t))
      (by intro a b c hab hbc; simp only [decide_eq_true_eq] at *; omega)
      (by intro a b; simp only [Bool.or_eq_true, decide_eq_true_eq]; omega) l
  obtain ⟨hd, tl, hcons⟩ : ∃ hd tl,
      l.mergeSort (fun a b => decide (b.t ≤ a.t)) = hd :: tl := by
    cases hm : l.mergeSort (fun a b => decide (b.t ≤ a.t)) with
    | nil => rw [hm] at h; simp at h
    | cons hd tl => exact ⟨hd, tl, rfl⟩
  rw [hcons] at h hperm hsorted
  have hhd : hd = e := by simpa using h
  rw [hhd] at hperm hsorted
  constructor
  · exact hperm.mem_iff.mp (List.mem_cons_self _ _)
  · intro x hx
    have hx2 : x ∈ e :: tl := hperm.mem_iff.mpr hx
    rcases List.mem_cons.mp hx2 with rfl | hx3
    · exact le_refl _
    · have := (List.pairwise_cons.mp hsorted).1 x hx3
      simpa using this

/-- C4: `extract_match_start_price` returns an entry of the history lying
in the window `[match_ts - max_hours_before*3600, match_ts]` whose
timestamp is greatest among the in-window entries (in particular never an
entry strictly after match start), and returns `none` exactly when the
history is missing, or empty, or contains no entry in that window. -/
theorem extract_match_start_price_spec (ph : Option (List PriceEntry))
    (match_ts max_hours_before : ℤ) :
    (∀ e, extract_match_start_price ph match_ts max_hours_before = some e →
      ∃ l, ph = some l ∧ e ∈ l ∧
        match_ts - max_hours_before * 3600 ≤ e.t ∧ e.t ≤ match_ts ∧
        ∀ e2 ∈ l, match_ts - max_hours_before * 3600 ≤ e2.t → e2.t ≤ match_ts →
          e2.t ≤ e.t) ∧
    (extract_match_start_price ph match_ts max_hours_before = none ↔
      ph = none ∨ ∃ l, ph = some l ∧
        ∀ e ∈ l, ¬(match_ts - max_hours_before * 3600 ≤ e.t ∧ e.t ≤ match_ts)) := by
  cases ph with
  | none =>
    refine ⟨by intro e he; simp [extract_match_start_price] at he, ?_⟩
    simp [extract_match_start_price]
  | some history =>
    by_cases hnil : history = []
    · subst hnil
      refine ⟨by intro e he; simp [extract_match_start_price] at he, ?_⟩
      simp [extract_match_start_price]
    · set min_ts := match_ts - max_hours_before * 3600 with hmin
      set valid := history.filter
        (fun entry => decide (min_ts ≤ entry.t) && decide (entry.t ≤ match_ts)) with hvalid
      by_cases hv : valid = []
      · have hnone : extract_match_start_price (some history) match_ts max_hours_before = none := by
          simp only [extract_match_start_price, if_neg hnil]
          rw [← hvalid, hv]
          simp
        refine ⟨by intro e he; rw [hnone] at he; exact absurd he (by simp), ?_⟩
        rw [hnone]
        simp only [true_iff]
        refine Or.inr ⟨history, rfl, ?_⟩
        intro e he hcontra
        have : e ∈ valid := by
          rw [hvalid]
          exact List.mem_filter.mpr ⟨he, by simp [hcontra.1, hcontra.2]⟩
        rw [hv] at this
        simp at this
      · obtain ⟨v0, vs, hcons⟩ := List.exists_cons_of_ne_nil hv
        have hextract : extract_match_start_price (some history) match_ts max_hours_before =
            (valid.mergeSort (fun a b => decide (b.t ≤ a.t))).head? := by
          simp only [extract_match_start_price, if_neg hnil]
          rw [← hvalid, if_neg hv]
        have hsort_ne : valid.mergeSort (fun a b => decide (b.t ≤ a.t)) ≠ [] := by
          intro hcontra
          have hp := List.mergeSort_perm valid (fun a b => decide (b.t ≤ a.t))
          rw [hcontra] at hp
          exact hv (hp.symm.eq_nil)
        constructor
        · intro e he
          rw [hextract] at he
          obtain ⟨hmem, hmax⟩ := head_mergeSort_desc valid e he
          have hmemf := List.mem_filter.mp (hvalid ▸ hmem)
          refine ⟨history, rfl, hmemf.1, ?_, ?_, ?_⟩
          · have := hmemf.2; simp at this; exact hmin ▸ this.1
          · have := hmemf.2; simp at this; exact this.2
          · intro e2 he2 hlo hhi
            have he2v : e2 ∈ valid := by
              rw [hvalid]
              exact List.mem_filter.mpr ⟨he2, by simp [hmin ▸ hlo, hhi]⟩
            exact hmax e2 he2v
        · rw [hextract]
          constructor
          · intro hnone
            exact absurd (List.head?_eq_none_iff.mp hnone) hsort_ne
          · rintro (hcontra | ⟨l, hl, hall⟩)
            · exact absurd hcontra (by simp)
            · obtain rfl : l = history := by injection hl.symm
              have : v0 ∈ valid := hcons ▸ List.mem_cons_self v0 vs
              have hmemf := List.mem_filter.mp (hvalid ▸ this)
              have := hall v0 hmemf.1
              have h2 := hmemf.2
              simp at h2
              exact absurd ⟨hmin ▸ h2.1, h2.2⟩ this

/-- C4 (witness): a history whose only entry sits strictly after match
start yields no reference price. -/
theorem extract_match_start_price_spec_witness :
    extract_match_start_price (some [⟨20, 1/2⟩]) 10 1 = none :=
  (extract_match_start_price_spec (some [⟨20, 1/2⟩]) 10 1).2.mpr
    (Or.inr ⟨[⟨20, 1/2⟩], rfl, by decide⟩)

/-! ## C7: subgraph cursor pagination -/

/-- C7: the pagination loop of `get_all_user_positions` starts at skip 0;
an error result yields the empty page which stops pagination exactly like
an empty data page (it is never raised - the pager is a total function
into position lists); a non-empty page shorter than the batch size is
kept and stops pagination; a full page is kept and pagination continues
with the skip advanced by the batch size. -/
theorem get_all_user_positions_spec (q : ℕ → GraphQLResult)
    (batch_size skip fuel : ℕ) :
    (get_all_user_positions q batch_size fuel =
      get_all_user_positions_aux q batch_size 0 fuel) ∧
    (∀ msg, q skip = GraphQLResult.error msg →
      get_all_user_positions_aux q batch_size skip (fuel + 1) = []) ∧
    (get_user_positions (q skip) = [] →
      get_all_user_positions_aux q batch_size skip (fuel + 1) = []) ∧
    (∀ b, get_user_positions (q skip) = b → b ≠ [] → b.length < batch_size →
      get_all_user_positions_aux q batch_size skip (fuel + 1) = b) ∧
    (∀ b, get_user_positions (q skip) = b → b ≠ [] → batch_size ≤ b.length →
      get_all_user_positions_aux q batch_size skip (fuel + 1) =
        b ++ get_all_user_positions_aux q batch_size (skip + batch_size) fuel) := by
  refine ⟨rfl, ?_, ?_, ?_, ?_⟩
  · intro msg hmsg
    simp [get_all_user_positions_aux, hmsg, get_user_positions]
  · intro hempty
    simp [get_all_user_positions_aux, hempty]
  · intro b hb hne hshort
    simp [get_all_user_positions_aux, hb, hne, hshort]
  · intro b hb hne hfull
    simp [get_all_user_positions_aux, hb, hne, Nat.not_lt.mpr hfull]

/-- C7 (witness): a transport error on the very first query produces an
empty total result, exactly as an exhausted data stream would. -/
theorem get_all_user_positions_spec_witness :
    get_all_user_positions_aux (fun _ => GraphQLResult.error "boom") 1000 0 4 = [] :=
  (get_all_user_positions_spec (fun _ => GraphQLResult.error "boom") 1000 0 3).2.1
    "boom" rfl

/-! ## C5: two-phase market orchestration -/

/-- Generalized accumulator characterization of
`_run_market_processing_loop`: the final accumulators are the initial
ones extended by the tagged trades of successful markets and the ids of
failed markets, in market order. -/
theorem run_market_processing_loop_fold (fetch : ℕ → MarketOutcome) :
    ∀ (markets : List ℕ) (acc : List TaggedTrade × List ℕ),
      markets.foldl
        (fun acc market_id =>
          match fetch market_id with
          | MarketOutcome.ok trades true =>
              (acc.1 ++ trades.map (fun tr => ⟨market_id, tr⟩), acc.2)
          | MarketOutcome.ok _ false => (acc.1, acc.2 ++ [market_id])
          | MarketOutcome.exn => (acc.1, acc.2 ++ [market_id]))
        acc =
      (acc.1 ++ markets.flatMap (marketTrades fetch),
       acc.2 ++ markets.filter (fun m => marketFailed (fetch m))) := by
  intro markets
  induction markets with
  | nil => intro acc; simp
  | cons m rest ih =>
    intro acc
    cases hm : fetch m with
    | ok trades success =>
      cases success with
      | true =>
        simp only [List.foldl_cons, hm, ih, List.flatMap_cons, List.filter_cons,
          marketTrades, marketFailed, hm]
        simp [List.append_assoc]
      | false =>
        simp only [List.foldl_cons, hm, ih, List.flatMap_cons, List.filter_cons,
          marketTrades, marketFailed, hm]
        simp [List.append_assoc]
    | exn =>
      simp only [List.foldl_cons, hm, ih, List.flatMap_cons, List.filter_cons,
        marketTrades, marketFailed, hm]
      simp [List.append_assoc]

/-- C5 (counterexample to the claim as stated): the permanently-failed
market list is not part of the return value.  Two runs over market `[1]`
- one in which market 1 fails both passes, one in which it cleanly
succeeds with zero trades - return the same value, even though their
final failed-market sets differ, so the caller cannot receive the
failed-market list from `fetch_all_trades_parallel`. -/
theorem fetch_all_trades_parallel_counterexample :
    fetch_all_trades_parallel (fun _ => MarketOutcome.ok [] false)
        (fun _ => MarketOutcome.ok [] false) [1] =
      fetch_all_trades_parallel (fun _ => MarketOutcome.ok [] true)
        (fun _ => MarketOutcome.ok [] true) [1] ∧
    (run_market_processing_loop (fun _ => MarketOutcome.ok [] false)
        ((run_market_processing_loop (fun _ => MarketOutcome.ok [] false) [1]).2)).2 ≠
      (run_market_processing_loop (fun _ => MarketOutcome.ok [] true)
        ((run_market_processing_loop (fun _ => MarketOutcome.ok [] true) [1]).2)).2 := by
  constructor
  · rfl
  · decide

/-- C5 (amended): `fetch_all_trades_parallel` runs the market-processing
loop once over all condition ids, collecting the tagged trades of the
successful markets and the ids of the failed ones; when any market
failed it re-runs the same loop exactly once over exactly that failed
subset and appends the retried trades; the markets still failing after
the second pass are only reported on standard output - the caller
receives just the merged trade list. -/
theorem fetch_all_trades_parallel_amended (fetch1 fetch2 : ℕ → MarketOutcome)
    (condition_ids : List ℕ) :
    run_market_processing_loop fetch1 condition_ids =
      (condition_ids.flatMap (marketTrades fetch1),
       condition_ids.filter (fun m => marketFailed (fetch1 m))) ∧
    fetch_all_trades_parallel fetch1 fetch2 condition_ids =
      (run_market_processing_loop fetch1 condition_ids).1 ++
        (run_market_processing_loop fetch2
          (run_market_processing_loop fetch1 condition_ids).2).1 := by
  constructor
  · simpa using run_market_processing_loop_fold fetch1 condition_ids ([], [])
  · show (let firstPass := run_market_processing_loop fetch1 condition_ids
          if firstPass.2 ≠ [] then
            let secondPass := run_market_processing_loop fetch2 firstPass.2
            firstPass.1 ++ secondPass.1
          else firstPass.1) = _
    by_cases hfail : (run_market_processing_loop fetch1 condition_ids).2 = []
    · rw [if_neg (by simpa using hfail)]
      rw [hfail]
      show _ = _ ++ (run_market_processing_loop fetch2 []).1
      simp [run_market_processing_loop]
    · rw [if_pos (by simpa using hfail)]

/-! ## C3: offset pager boundary adherence -/

/-- Invariant of the inner retry loop of `fetch_range` for a bounded
worker: the accumulator length always equals the offset progress, a
successful advance never leaves the offset past the boundary (trimming
and clamping guarantee it), rate-limit exhaustion leaves the accumulator
untouched, and the immediate-return paths return the accumulator as it
stood. -/
theorem fr_inner_spec (pages : ℕ → FPage)
    (process_id num_processes end_offset s : ℕ)
    (hpid : process_id < num_processes) (hs : s ≤ end_offset) :
    ∀ (fuel retry : ℕ) (st : FRState),
      st.current_offset = s + st.all_data.length →
      st.current_offset < end_offset →
      (∀ st1, fr_inner pages process_id num_processes end_offset st retry fuel =
          FRInner.advanced st1 →
        st1.current_offset = s + st1.all_data.length ∧
          st1.current_offset ≤ end_offset) ∧
      (∀ st1, fr_inner pages process_id num_processes end_offset st retry fuel =
          FRInner.exhausted st1 →
        st1.all_data = st.all_data ∧ st1.current_offset = st.current_offset) ∧
      (∀ d, fr_inner pages process_id num_processes end_offset st retry fuel =
          FRInner.finished d → d = st.all_data) := by
  intro fuel
  induction fuel with
  | zero =>
    intro retry st hinv hlt
    refine ⟨?_, ?_, ?_⟩
    · intro st1 h; exact absurd h (by simp [fr_inner])
    · intro st1 h
      simp only [fr_inner, FRInner.exhausted.injEq] at h
      exact ⟨by rw [← h], by rw [← h]⟩
    · intro d h; exact absurd h (by simp [fr_inner])
  | succ fuel ih =>
    intro retry st hinv hlt
    cases hp : pages st.calls with
    | ok data =>
      by_cases hd : data = []
      · refine ⟨?_, ?_, ?_⟩
        · intro st1 h; rw [fr_inner] at h; simp [hp, hd] at h
        · intro st1 h; rw [fr_inner] at h; simp [hp, hd] at h
        · intro d2 h
          rw [fr_inner] at h
          simp only [hp, hd, if_pos, FRInner.finished.injEq] at h
          exact h.symm
      · by_cases hover :
            end_offset < st.current_offset + data.length
        · have hexcess : st.current_offset + data.length - end_offset ≤
              st.all_data.length + data.length := by omega
          refine ⟨?_, ?_, ?_⟩
          · intro st1 h
            rw [fr_inner] at h
            simp only [hp, if_neg hd, List.length_append] at h
            rw [if_pos ⟨hpid, by simpa using hover⟩] at h
            rw [if_pos (by simpa using hexcess)] at h
            simp only [FRInner.advanced.injEq] at h
            subst h
            refine ⟨?_, le_refl _⟩
            simp only [List.length_take, List.length_append]
            omega
          · intro st1 h
            rw [fr_inner] at h
            simp only [hp, if_neg hd, List.length_append] at h
            rw [if_pos ⟨hpid, by simpa using hover⟩] at h
            rw [if_pos (by simpa using hexcess)] at h
            simp at h
          · intro d2 h
            rw [fr_inner] at h
            simp only [hp, if_neg hd, List.length_append] at h
            rw [if_pos ⟨hpid, by simpa using hover⟩] at h
            rw [if_pos (by simpa using hexcess)] at h
            simp at h
        · refine ⟨?_, ?_, ?_⟩
          · intro st1 h
            rw [fr_inner] at h
            simp only [hp, if_neg hd, List.length_append] at h
            rw [if_neg (by simp; intro _; simpa using hover)] at h
            simp only [FRInner.advanced.injEq] at h
            subst h
            simp only [List.length_append]
            omega
          · intro st1 h
            rw [fr_inner] at h
            simp only [hp, if_neg hd, List.length_append] at h
            rw [if_neg (by simp; intro _; simpa using hover)] at h
            simp at h
          · intro d2 h
            rw [fr_inner] at h
            simp only [hp, if_neg hd, List.length_append] at h
            rw [if_neg (by simp; intro _; simpa using hover)] at h
            simp at h
    | rateLimited =>
      by_cases hb : 5 ≤ retry + 1
      · refine ⟨?_, ?_, ?_⟩
        · intro st1 h; rw [fr_inner] at h; simp [hp, hb] at h
        · intro st1 h
          rw [fr_inner] at h
          simp only [hp, if_pos hb, FRInner.exhausted.injEq] at h
          exact ⟨by rw [← h], by rw [← h]⟩
        · intro d h; rw [fr_inner] at h; simp [hp, hb] at h
      · have hrec := ih (retry + 1)
          { st with calls := st.calls + 1 } (by simpa using hinv) (by simpa using hlt)
        refine ⟨?_, ?_, ?_⟩
        · intro st1 h
          rw [fr_inner] at h
          rw [hp] at h
          rw [if_neg hb] at h
          exact hrec.1 st1 h
        · intro st1 h
          rw [fr_inner] at h
          rw [hp] at h
          rw [if_neg hb] at h
          have := hrec.2.1 st1 h
          exact ⟨this.1, this.2⟩
        · intro d h
          rw [fr_inner] at h
          rw [hp] at h
          rw [if_neg hb] at h
          exact hrec.2.2 d h
    | failed =>
      refine ⟨?_, ?_, ?_⟩
      · intro st1 h; rw [fr_inner] at h; simp [hp] at h
      · intro st1 h; rw [fr_inner] at h; simp [hp] at h
      · intro d h
        rw [fr_inner] at h
        simp only [hp, FRInner.finished.injEq] at h
        exact h.symm

/-- The outer loop of `fetch_range` keeps a bounded worker's accumulator
within its window. -/
theorem fr_outer_bounded (pages : ℕ → FPage)
    (process_id num_processes end_offset s : ℕ)
    (hpid : process_id < num_processes) (hs : s ≤ end_offset) :
    ∀ (fuel : ℕ) (st : FRState),
      st.current_offset = s + st.all_data.length →
      st.current_offset ≤ end_offset →
      (fr_outer pages process_id num_processes end_offset st fuel).length ≤
        end_offset - s := by
  intro fuel
  induction fuel with
  | zero =>
    intro st hinv hle
    simp only [fr_outer]
    omega
  | succ fuel ih =>
    intro st hinv hle
    by_cases hguard : end_offset ≤ st.current_offset
    · rw [fr_outer, if_pos ⟨hpid, hguard⟩]
      omega
    · have hlt : st.current_offset < end_offset := by omega
      have hspec := fr_inner_spec pages process_id num_processes end_offset s hpid hs
        5 0 { st with max_limit := min st.max_limit (end_offset - st.current_offset) }
        (by simpa using hinv) (by simpa using hlt)
      rw [fr_outer, if_neg (by simp [hguard])]
      simp only [if_pos hpid]
      cases hfr : fr_inner pages process_id num_processes end_offset
          { st with max_limit := min st.max_limit (end_offset - st.current_offset) }
          0 5 with
      | finished d =>
        have hd := hspec.2.2 d hfr
        simp only [hd]
        omega
      | exhausted st1 =>
        have h1 := hspec.2.1 st1 hfr
        simp only [h1.1]
        omega
      | advanced st1 =>
        obtain ⟨hinv1, hle1⟩ := hspec.1 st1 hfr
        show (if process_id < num_processes ∧ end_offset ≤ st1.current_offset
            then st1.all_data
            else fr_outer pages process_id num_processes end_offset st1 fuel).length ≤
          end_offset - s
        by_cases hg2 : end_offset ≤ st1.current_offset
        · rw [if_pos ⟨hpid, hg2⟩]
          omega
        · rw [if_neg (by simp [hg2])]
          exact ih st1 hinv1 (by omega)

/-- Summing a per-element bound over a list. -/
theorem list_sum_le_of_forall_le (r : ℕ) :
    ∀ (l : List ℕ) (f : ℕ → ℕ), (∀ i ∈ l, f i ≤ r) →
      (l.map f).sum ≤ l.length * r := by
  intro l
  induction l with
  | nil => intro f _; simp
  | cons x xs ih =>
    intro f hf
    simp only [List.map_cons, List.sum_cons, List.length_cons]
    have h1 := hf x (List.mem_cons_self x xs)
    have h2 := ih f (fun i hi => hf i (List.mem_cons_of_mem x hi))
    calc f x + (xs.map f).sum ≤ r + xs.length * r := Nat.add_le_add h1 h2
    _ = (xs.length + 1) * r := by ring

set_option maxRecDepth 4000 in
/-- C3 (counterexample to the claim as stated): the boundary checks of
`fetch_range` are all guarded by `process_id < num_processes`, so the
last worker of an `all_data_parallel` split is unbounded.  With one
worker (the window [0, 250) assigned to identity 1 out of 1) and a
server whose first page holds 251 records, the worker collects 251
records - more than its window size - with no trimming. -/
theorem fetch_range_counterexample :
    all_data_parallel_ranges 1 250 = [(0, 250, 1)] ∧
    (fetch_range
        (fun n => if n = 0 then FPage.ok (List.replicate 251 0) else FPage.ok [])
        0 250 1 1 3).length = 251 ∧
    250 - 0 < 251 := by
  refine ⟨by decide, ?_, by decide⟩
  rfl

/-- C3 (amended): for every worker whose identity is strictly below the
worker count - that is, every worker of an `all_data_parallel` split
except the last - the collected record count never exceeds the window
size `end_offset - start_offset` (over-fetch is trimmed from the tail
and the offset clamped to the boundary), and consequently the sum of
those workers' collected record counts is at most
`(num_processes - 1) * records_per_process`.  The last worker
(`process_id = num_processes`) is deliberately exempt from every
boundary check and collects until the data ends. -/
theorem fetch_range_bounded_amended (pages : ℕ → FPage)
    (start_offset end_offset process_id num_processes fuel : ℕ)
    (hpid : process_id < num_processes) (hse : start_offset ≤ end_offset) :
    (fetch_range pages start_offset end_offset process_id num_processes
        fuel).length ≤ end_offset - start_offset ∧
    ∀ (pagesFam : ℕ → ℕ → FPage) (fuels : ℕ → ℕ) (n r : ℕ),
      (((all_data_parallel_ranges n r).take (n - 1)).map
          (fun w => (fetch_range (pagesFam w.2.2) w.1 w.2.1 w.2.2 n
            (fuels w.2.2)).length)).sum ≤ (n - 1) * r := by
  constructor
  · exact fr_outer_bounded pages process_id num_processes end_offset
      start_offset hpid hse fuel ⟨[], start_offset, 500, 0⟩ (by simp) hse
  · intro pagesFam fuels n r
    have htake : (all_data_parallel_ranges n r).take (n - 1) =
        (List.range (n - 1)).map
          (fun i => (i * r, (i + 1) * r, i + 1)) := by
      rw [all_data_parallel_ranges, ← List.map_take, List.take_range,
        Nat.min_eq_left (by omega)]
    rw [htake, List.map_map]
    have hbound : ∀ i ∈ List.range (n - 1),
        ((fun w : ℕ × ℕ × ℕ => (fetch_range (pagesFam w.2.2) w.1 w.2.1 w.2.2 n
          (fuels w.2.2)).length) ∘ (fun i => (i * r, (i + 1) * r, i + 1))) i ≤ r := by
      intro i hi
      have hiN : i + 1 < n := by
        have := List.mem_range.mp hi
        omega
      have := fr_outer_bounded (pagesFam (i + 1)) (i + 1) n ((i + 1) * r)
        (i * r) hiN (by nlinarith) (fuels (i + 1)) ⟨[], i * r, 500, 0⟩ (by simp)
        (by nlinarith)
      calc (fetch_range (pagesFam (i + 1)) (i * r) ((i + 1) * r) (i + 1) n
            (fuels (i + 1))).length ≤ (i + 1) * r - i * r := this
      _ = r := by ring_nf; omega
    have := list_sum_le_of_forall_le r (List.range (n - 1)) _ hbound
    simpa using this

/-- C3 (witness): a bounded worker (identity 1 of 2, window [0, 250))
collects at most 250 records whatever the server sends; here a server
sending 251-record pages is trimmed to exactly the window. -/
theorem fetch_range_bounded_amended_witness :
    (fetch_range
        (fun n => if n = 0 then FPage.ok (List.replicate 251 0) else FPage.ok [])
        0 250 1 2 3).length ≤ 250 - 0 :=
  (fetch_range_bounded_amended
    (fun n => if n = 0 then FPage.ok (List.replicate 251 0) else FPage.ok [])
    0 250 1 2 3 (by decide) (by decide)).1

/-! ## C2: the concurrency gate -/

/-- The retry loop of the single-page fetch never touches the gate: its
event trace contains no `acquire` and no `release` (both live outside
the loop, in the function's prologue and `finally` block). -/
theorem single_page_loop_no_gate_events (resp : ℕ → ReqResult)
    (max_retries : ℕ) :
    ∀ (fuel attempt retry : ℕ),
      GateEvent.acquire ∉ (single_page_loop resp max_retries attempt retry fuel).1 ∧
      GateEvent.release ∉ (single_page_loop resp max_retries attempt retry fuel).1 := by
  intro fuel
  induction fuel with
  | zero => intro attempt retry; simp [single_page_loop]
  | succ fuel ih =>
    intro attempt retry
    rw [single_page_loop]
    by_cases hr : retry ≤ max_retries
    · rw [if_pos hr]
      cases hresp : resp attempt with
      | exn =>
        by_cases hb : max_retries < retry + 1
        · simp [hb]
        · simp only [if_neg hb]
          constructor
          · simp only [List.mem_cons]
            push_neg
            exact ⟨by simp, by simp, (ih (attempt + 1) (retry + 1)).1⟩
          · simp only [List.mem_cons]
            push_neg
            exact ⟨by simp, by simp, (ih (attempt + 1) (retry + 1)).2⟩
      | resp status body =>
        by_cases h200 : status = 200
        · simp [h200]
        · by_cases h429 : status = 429 ∨ status = 408
          · by_cases hb : max_retries < retry + 1
            · simp [h200, h429, hb]
            · simp only [if_neg h200, if_pos h429, if_neg hb]
              constructor
              · simp only [List.mem_cons]
                push_neg
                exact ⟨by simp, by simp, (ih (attempt + 1) (retry + 1)).1⟩
              · simp only [List.mem_cons]
                push_neg
                exact ⟨by simp, by simp, (ih (attempt + 1) (retry + 1)).2⟩
          · simp [h200, h429]
    · simp [if_neg hr]


/-- Splitting the holding-thread count around one non-holding thread. -/
theorem filter_holding_split_false (pre post : List GateThread)
    (evs : List GateEvent) :
    ((pre ++ (⟨false, evs⟩ : GateThread) :: post).filter
        (fun t => t.holding)).length =
      (pre.filter (fun t => t.holding)).length +
        (post.filter (fun t => t.holding)).length := by
  simp [List.filter_append, List.filter_cons]

/-- Splitting the holding-thread count around one holding thread. -/
theorem filter_holding_split_true (pre post : List GateThread)
    (evs : List GateEvent) :
    ((pre ++ (⟨true, evs⟩ : GateThread) :: post).filter
        (fun t => t.holding)).length =
      (pre.filter (fun t => t.holding)).length + 1 +
        (post.filter (fun t => t.holding)).length := by
  simp [List.filter_append, List.filter_cons]
  omega

/-- A non-holding thread with a pending event list is about to start a
full bracketed trace, so that list starts with `acquire`. -/
theorem threadOK_false_cons (e : GateEvent) (rest : List GateEvent)
    (h : ThreadOK ⟨false, e :: rest⟩) :
    e = GateEvent.acquire ∧
      ∃ mid, rest = mid ++ [GateEvent.release] ∧
        GateEvent.acquire ∉ mid ∧ GateEvent.release ∉ mid := by
  simp only [ThreadOK] at h
  rw [if_neg (by simp : ¬(false = true))] at h
  rcases h with h | h
  · simp at h
  · obtain ⟨mid, heq, hna, hnr⟩ := h
    cases mid with
    | nil =>
      injection heq with h1 h2
      exact ⟨h1, [], by simpa using h2, by simp, by simp⟩
    | cons m0 mid2 =>
      have heq2 : e :: rest =
          GateEvent.acquire :: (m0 :: mid2) ++ [GateEvent.release] := heq
      injection heq2 with h1 h2
      refine ⟨h1, m0 :: mid2, h2, hna, hnr⟩

/-- A holding thread's pending events are the tail of a bracket: some
gate-free prefix followed by the single `release`. -/
theorem threadOK_true_elim (evs : List GateEvent)
    (h : ThreadOK ⟨true, evs⟩) :
    ∃ mid, evs = mid ++ [GateEvent.release] ∧
      GateEvent.acquire ∉ mid ∧ GateEvent.release ∉ mid := by
  simpa only [ThreadOK, if_pos rfl] using h

/-- One interleaving step preserves the gate invariant: all threads stay
bracket-consistent and the free permits plus held permits always equal
the capacity. -/
theorem gate_step_preserves (cap : ℕ) (s s2 : GateSystem)
    (hstep : GateStep s s2)
    (hok : ∀ th ∈ s.threads, ThreadOK th)
    (hcount : s.count + holdingCount s = cap) :
    (∀ th ∈ s2.threads, ThreadOK th) ∧ s2.count + holdingCount s2 = cap := by
  cases hstep with
  | acquire count pre post b rest hcnt =>
    have hth : ThreadOK ⟨b, GateEvent.acquire :: rest⟩ := hok _ (by simp)
    have hb : b = false := by
      cases b with
      | false => rfl
      | true =>
        exfalso
        obtain ⟨mid, heq, hna, hnr⟩ := threadOK_true_elim _ hth
        cases mid with
        | nil => simp at heq
        | cons m0 mid2 =>
          injection heq with h1 h2
          exact hna (h1 ▸ List.mem_cons_self _ _)
    subst hb
    obtain ⟨-, mid, hrest, hna, hnr⟩ := threadOK_false_cons _ _ hth
    constructor
    · intro th hmem
      simp only [List.mem_append, List.mem_cons] at hmem
      rcases hmem with hpre | hth2 | hpost
      · exact hok th (by simp [hpre])
      · subst hth2
        show ThreadOK ⟨true, rest⟩
        simp only [ThreadOK, if_pos rfl]
        exact ⟨mid, hrest, hna, hnr⟩
      · exact hok th (by simp [hpost])
    · have hc1 : count +
          ((pre ++ (⟨false, GateEvent.acquire :: rest⟩ : GateThread) :: post).filter
            (fun t => t.holding)).length = cap := hcount
      show count - 1 +
        ((pre ++ (⟨true, rest⟩ : GateThread) :: post).filter
          (fun t => t.holding)).length = cap
      rw [filter_holding_split_false] at hc1
      rw [filter_holding_split_true]
      omega
  | release count pre post b rest =>
    have hth : ThreadOK ⟨b, GateEvent.release :: rest⟩ := hok _ (by simp)
    have hb : b = true := by
      cases b with
      | true => rfl
      | false =>
        exfalso
        obtain ⟨habs, -⟩ := threadOK_false_cons _ _ hth
        exact absurd habs (by simp)
    subst hb
    obtain ⟨mid, heq, hna, hnr⟩ := threadOK_true_elim _ hth
    have hrest : rest = [] := by
      cases mid with
      | nil =>
        simpa using congrArg List.tail heq
      | cons m0 mid2 =>
        exfalso
        injection heq with h1 h2
        exact hnr (h1 ▸ List.mem_cons_self _ _)
    subst hrest
    constructor
    · intro th hmem
      simp only [List.mem_append, List.mem_cons] at hmem
      rcases hmem with hpre | hth2 | hpost
      · exact hok th (by simp [hpre])
      · subst hth2
        show ThreadOK ⟨false, []⟩
        simp only [ThreadOK]
        rw [if_neg (by simp : ¬(false = true))]
        simp
      · exact hok th (by simp [hpost])
    · have hc1 : count +
          ((pre ++ (⟨true, [GateEvent.release]⟩ : GateThread) :: post).filter
            (fun t => t.holding)).length = cap := hcount
      show count + 1 +
        ((pre ++ (⟨false, ([] : List GateEvent)⟩ : GateThread) :: post).filter
          (fun t => t.holding)).length = cap
      rw [filter_holding_split_true] at hc1
      rw [filter_holding_split_false]
      omega
  | request count pre post b rest =>
    have hth : ThreadOK ⟨b, GateEvent.request :: rest⟩ := hok _ (by simp)
    have hb : b = true := by
      cases b with
      | true => rfl
      | false =>
        exfalso
        obtain ⟨habs, -⟩ := threadOK_false_cons _ _ hth
        exact absurd habs (by simp)
    subst hb
    obtain ⟨mid, heq, hna, hnr⟩ := threadOK_true_elim _ hth
    obtain ⟨mid2, hmid2⟩ : ∃ mid2, mid = GateEvent.request :: mid2 := by
      cases mid with
      | nil => simp at heq
      | cons m0 mid2 =>
        injection heq with h1 h2
        exact ⟨mid2, by rw [h1]⟩
    subst hmid2
    have hrest : rest = mid2 ++ [GateEvent.release] := by
      simpa using congrArg List.tail heq
    constructor
    · intro th hmem
      simp only [List.mem_append, List.mem_cons] at hmem
      rcases hmem with hpre | hth2 | hpost
      · exact hok th (by simp [hpre])
      · subst hth2
        show ThreadOK ⟨true, rest⟩
        simp only [ThreadOK, if_pos rfl]
        exact ⟨mid2, hrest,
          fun hmem2 => hna (List.mem_cons_of_mem _ hmem2),
          fun hmem2 => hnr (List.mem_cons_of_mem _ hmem2)⟩
      · exact hok th (by simp [hpost])
    · have hc1 : count +
          ((pre ++ (⟨true, GateEvent.request :: rest⟩ : GateThread) :: post).filter
            (fun t => t.holding)).length = cap := hcount
      show count +
        ((pre ++ (⟨true, rest⟩ : GateThread) :: post).filter
          (fun t => t.holding)).length = cap
      rw [filter_holding_split_true] at hc1
      rw [filter_holding_split_true]
      omega
  | sleep count pre post b d rest =>
    have hth : ThreadOK ⟨b, GateEvent.sleep d :: rest⟩ := hok _ (by simp)
    have hb : b = true := by
      cases b with
      | true => rfl
      | false =>
        exfalso
        obtain ⟨habs, -⟩ := threadOK_false_cons _ _ hth
        exact absurd habs (by simp)
    subst hb
    obtain ⟨mid, heq, hna, hnr⟩ := threadOK_true_elim _ hth
    obtain ⟨mid2, hmid2⟩ : ∃ mid2, mid = GateEvent.sleep d :: mid2 := by
      cases mid with
      | nil => simp at heq
      | cons m0 mid2 =>
        injection heq with h1 h2
        exact ⟨mid2, by rw [h1]⟩
    subst hmid2
    have hrest : rest = mid2 ++ [GateEvent.release] := by
      simpa using congrArg List.tail heq
    constructor
    · intro th hmem
      simp only [List.mem_append, List.mem_cons] at hmem
      rcases hmem with hpre | hth2 | hpost
      · exact hok th (by simp [hpre])
      · subst hth2
        show ThreadOK ⟨true, rest⟩
        simp only [ThreadOK, if_pos rfl]
        exact ⟨mid2, hrest,
          fun hmem2 => hna (List.mem_cons_of_mem _ hmem2),
          fun hmem2 => hnr (List.mem_cons_of_mem _ hmem2)⟩
      · exact hok th (by simp [hpost])
    · have hc1 : count +
          ((pre ++ (⟨true, GateEvent.sleep d :: rest⟩ : GateThread) :: post).filter
            (fun t => t.holding)).length = cap := hcount
      show count +
        ((pre ++ (⟨true, rest⟩ : GateThread) :: post).filter
          (fun t => t.holding)).length = cap
      rw [filter_holding_split_true] at hc1
      rw [filter_holding_split_true]
      omega

/-- C2: (i) every run of `fetch_trades_for_single_market_page` - for any
response sequence, hence on success, retry exhaustion, or exception -
produces a bracketed gate trace: exactly one `acquire` first, exactly
one `release` last, and every HTTP request strictly between them;
(ii) under the semaphore's interleaving semantics, starting any number
of threads with bracketed (or empty) traces against a gate of capacity
`cap`, every reachable state has at most `cap` threads holding the
gate, and any thread about to issue an HTTP request is holding it - so
at no instant do more than `cap` market-fetcher HTTP calls run. -/
theorem gate_capacity_invariant :
    (∀ (resp : ℕ → ReqResult) (max_retries : ℕ),
      Bracketed (fetch_trades_for_single_market_page resp max_retries).1) ∧
    (∀ (cap : ℕ) (traces : List (List GateEvent)),
      (∀ t ∈ traces, t = [] ∨ Bracketed t) →
      ∀ s, GateReachable cap traces s →
        holdingCount s ≤ cap ∧
        ∀ th ∈ s.threads, th.events.head? = some GateEvent.request →
          th.holding = true) := by
  constructor
  · intro resp max_retries
    exact ⟨(single_page_loop resp max_retries 0 0 (max_retries + 2)).1, rfl,
      (single_page_loop_no_gate_events resp max_retries _ 0 0).1,
      (single_page_loop_no_gate_events resp max_retries _ 0 0).2⟩
  · intro cap traces htraces s hreach
    have hinv : (∀ th ∈ s.threads, ThreadOK th) ∧
        s.count + holdingCount s = cap := by
      induction hreach with
      | refl =>
        constructor
        · intro th hmem
          simp only [initGateSystem, List.mem_map] at hmem
          obtain ⟨t, ht, hth⟩ := hmem
          subst hth
          simp only [ThreadOK]
          rw [if_neg (by simp : ¬(false = true))]
          exact htraces t ht
        · have hzero : holdingCount (initGateSystem cap traces) = 0 := by
            simp only [initGateSystem, holdingCount]
            rw [List.filter_eq_nil_iff.mpr]
            · rfl
            · intro th hmem
              simp only [List.mem_map] at hmem
              obtain ⟨t, ht, hth⟩ := hmem
              subst hth
              simp
          show cap + holdingCount (initGateSystem cap traces) = cap
          rw [hzero]
          omega
      | tail hsteps hstep ih =>
        exact gate_step_preserves cap _ _ hstep ih.1 ih.2
    refine ⟨by omega, ?_⟩
    intro th hmem hhead
    have hok := hinv.1 th hmem
    by_cases hh : th.holding
    · exact hh
    · exfalso
      have : th = ⟨false, th.events⟩ := by
        cases th with
        | mk holding events =>
          simp only at hh ⊢
          simp [Bool.not_eq_true] at hh
          rw [hh]
      rw [this] at hok
      obtain ⟨e, rest, hev⟩ : ∃ e rest, th.events = e :: rest := by
        cases hevs : th.events with
        | nil => rw [hevs] at hhead; simp at hhead
        | cons e rest => exact ⟨e, rest, rfl⟩
      rw [hev] at hok
      obtain ⟨habs, -⟩ := threadOK_false_cons _ _ hok
      rw [hev] at hhead
      simp only [List.head?_cons, Option.some.injEq] at hhead
      rw [habs] at hhead
      exact absurd hhead (by simp)

/-- C2 (witness): a concrete 200-response run yields a bracketed trace,
and the initial two-permit system with one pending bracketed thread is a
reachable state within capacity. -/
theorem gate_capacity_invariant_witness :
    Bracketed (fetch_trades_for_single_market_page
      (fun _ => ReqResult.resp 200 [5]) 3).1 ∧
    holdingCount (initGateSystem 2
      [[GateEvent.acquire, GateEvent.request, GateEvent.release]]) ≤ 2 := by
  constructor
  · exact gate_capacity_invariant.1 (fun _ => ReqResult.resp 200 [5]) 3
  · refine (gate_capacity_invariant.2 2
      [[GateEvent.acquire, GateEvent.request, GateEvent.release]] ?_ _
      Relation.ReflTransGen.refl).1
    intro t ht
    simp only [List.mem_singleton] at ht
    subst ht
    exact Or.inr ⟨[GateEvent.request], rfl, by simp, by simp⟩

/-! ## C6: inner retry policy of the single-page fetch -/

/-- C6 (counterexample to the claim as stated): a transport exception
does not fail the page immediately - it is retried.  With an oracle whose
first call raises and whose second call returns 200, the page fetch
succeeds after two HTTP requests (with a 5 second sleep between them),
which contradicts "any transport exception fails the page immediately
with no retry". -/
theorem single_page_exception_retry_counterexample :
    (fetch_trades_for_single_market_page
        (fun n => if n = 0 then ReqResult.exn else ReqResult.resp 200 [7]) 10).2 =
      ([7], true) ∧
    (fetch_trades_for_single_market_page
        (fun n => if n = 0 then ReqResult.exn else ReqResult.resp 200 [7]) 10).1.count
      GateEvent.request = 2 := by
  constructor
  · rfl
  · rfl

/-- C6 (amended): within one single-page fetch holding the gate, a 200
response returns the page successfully; a 429 or 408 response with
retry budget remaining sleeps `min(10 + 2^(retry+1), 30)` seconds and
retries the same page, and fails the page once the budget is exhausted;
any other status code fails the page immediately with no retry; a
transport exception with budget remaining is retried after a fixed
5 second sleep (not failed immediately, as the spec claims), and fails
the page once the budget is exhausted; all outcomes are returned as
`(trades, success)` values, never raised, and the loop never emits a
gate release (the gate is held throughout). -/
theorem single_page_retry_policy (resp : ℕ → ReqResult)
    (max_retries attempt retry fuel : ℕ) (hretry : retry ≤ max_retries) :
    (∀ body, resp attempt = ReqResult.resp 200 body →
      single_page_loop resp max_retries attempt retry (fuel + 1) =
        ([GateEvent.request], (body, true))) ∧
    (∀ status body, resp attempt = ReqResult.resp status body →
      (status = 429 ∨ status = 408) → retry + 1 ≤ max_retries →
      single_page_loop resp max_retries attempt retry (fuel + 1) =
        (GateEvent.request :: GateEvent.sleep (min (10 + 2 ^ (retry + 1)) 30) ::
          (single_page_loop resp max_retries (attempt + 1) (retry + 1) fuel).1,
         (single_page_loop resp max_retries (attempt + 1) (retry + 1) fuel).2)) ∧
    (∀ status body, resp attempt = ReqResult.resp status body →
      (status = 429 ∨ status = 408) → max_retries < retry + 1 →
      single_page_loop resp max_retries attempt retry (fuel + 1) =
        ([GateEvent.request], ([], false))) ∧
    (∀ status body, resp attempt = ReqResult.resp status body →
      status ≠ 200 → status ≠ 429 → status ≠ 408 →
      single_page_loop resp max_retries attempt retry (fuel + 1) =
        ([GateEvent.request], ([], false))) ∧
    (resp attempt = ReqResult.exn → retry + 1 ≤ max_retries →
      single_page_loop resp max_retries attempt retry (fuel + 1) =
        (GateEvent.request :: GateEvent.sleep 5 ::
          (single_page_loop resp max_retries (attempt + 1) (retry + 1) fuel).1,
         (single_page_loop resp max_retries (attempt + 1) (retry + 1) fuel).2)) ∧
    (resp attempt = ReqResult.exn → max_retries < retry + 1 →
      single_page_loop resp max_retries attempt retry (fuel + 1) =
        ([GateEvent.request], ([], false))) ∧
    GateEvent.release ∉ (single_page_loop resp max_retries attempt retry (fuel + 1)).1 := by
  refine ⟨?_, ?_, ?_, ?_, ?_, ?_,
    (single_page_loop_no_gate_events resp max_retries (fuel + 1) attempt retry).2⟩
  · intro body hresp
    rw [single_page_loop, if_pos hretry, hresp]
    simp
  · intro status body hresp hstat hbudget
    rw [single_page_loop, if_pos hretry, hresp]
    have h200 : status ≠ 200 := by rcases hstat with h | h <;> omega
    simp only [if_neg h200, if_pos hstat, if_neg (by omega : ¬max_retries < retry + 1)]
  · intro status body hresp hstat hbudget
    rw [single_page_loop, if_pos hretry, hresp]
    have h200 : status ≠ 200 := by rcases hstat with h | h <;> omega
    simp only [if_neg h200, if_pos hstat, if_pos hbudget]
  · intro status body hresp h200 h429 h408
    rw [single_page_loop, if_pos hretry, hresp]
    simp only [if_neg h200, if_neg (by tauto : ¬(status = 429 ∨ status = 408))]
  · intro hresp hbudget
    rw [single_page_loop, if_pos hretry, hresp]
    simp only [if_neg (by omega : ¬max_retries < retry + 1)]
  · intro hresp hbudget
    rw [single_page_loop, if_pos hretry, hresp]
    simp only [if_pos hbudget]

/-- C6 (witness): a 500 response fails the page immediately - a single
request, no sleep, result `([], False)`. -/
theorem single_page_retry_policy_witness :
    single_page_loop (fun _ => ReqResult.resp 500 []) 3 0 0 (4 + 1) =
      ([GateEvent.request], ([], false)) :=
  (single_page_retry_policy (fun _ => ReqResult.resp 500 []) 3 0 0 4
    (by omega)).2.2.2.1 500 [] rfl (by omega) (by omega) (by omega)

/-! ## C8: batched PNL pagination -/

/-- Termination of the `_fetch_batch_pnl` loop: with a positive page
limit, fuel `(10000 - offset)·(max_retries+1) + (max_retries - retry) + 1`
always suffices, because every iteration either advances the offset by
`limit` (and the offset is capped at 10,000), consumes one retry, or
returns. -/
theorem fetch_batch_pnl_aux_terminates (resp : ℕ → PnlResp)
    (limit max_retries : ℕ) (hl : 0 < limit) :
    ∀ (fuel call offset retry_count : ℕ) (batch : List PnlRecord),
      (10000 - offset) * (max_retries + 1) + (max_retries - retry_count) + 1 ≤ fuel →
      (fetch_batch_pnl_aux resp limit max_retries call offset retry_count
        batch fuel).isSome = true := by
  intro fuel
  induction fuel with
  | zero =>
    intro call offset retry_count batch hfuel
    omega
  | succ fuel ih =>
    intro call offset retry_count batch hfuel
    rw [fetch_batch_pnl_aux]
    cases hresp : resp call with
    | ok data =>
      by_cases hd : data = []
      · simp [hd]
      · simp only [if_neg hd]
        by_cases hshort : data.length < limit
        · simp [hshort]
        · simp only [if_neg hshort]
          by_cases hcap : 10000 ≤ offset + limit
          · simp [hcap]
          · simp only [if_neg hcap]
            apply ih
            have hab : (10000 - (offset + limit) + 1) * (max_retries + 1) ≤
                (10000 - offset) * (max_retries + 1) :=
              Nat.mul_le_mul_right _ (by omega)
            rw [Nat.succ_mul] at hab
            set a := (10000 - offset) * (max_retries + 1) with ha
            set b := (10000 - (offset + limit)) * (max_retries + 1) with hb
            omega
    | badBody => simp
    | rateLimited =>
      by_cases hbudget : max_retries ≤ retry_count + 1
      · simp [hbudget]
      · simp only [if_neg hbudget]
        apply ih
        set a := (10000 - offset) * (max_retries + 1) with ha
        omega
    | httpStatus code =>
      by_cases hfatal : code = 400 ∨ code = 401 ∨ code = 403 ∨ code = 404
      · simp [hfatal]
      · simp only [if_neg hfatal]
        by_cases hbudget : max_retries ≤ retry_count + 1
        · simp [hbudget]
        · simp only [if_neg hbudget]
          apply ih
          set a := (10000 - offset) * (max_retries + 1) with ha
          omega
    | exn =>
      by_cases hbudget : max_retries ≤ retry_count + 1
      · simp [hbudget]
      · simp only [if_neg hbudget]
        apply ih
        set a := (10000 - offset) * (max_retries + 1) with ha
        omega

/-- Record bound of the `_fetch_batch_pnl` loop: when the server never
returns more records than requested and the limit divides 10,000, the
accumulator never exceeds the offset and the loop result stays within
10,000 records. -/
theorem fetch_batch_pnl_aux_bound (resp : ℕ → PnlResp)
    (limit max_retries : ℕ)
    (hpages : ∀ n d, resp n = PnlResp.ok d → d.length ≤ limit)
    (hdvd : limit ∣ 10000) :
    ∀ (fuel call offset retry_count : ℕ) (batch res : List PnlRecord),
      limit ∣ offset → batch.length ≤ offset → offset + limit ≤ 10000 →
      fetch_batch_pnl_aux resp limit max_retries call offset retry_count
        batch fuel = some res →
      res.length ≤ 10000 := by
  intro fuel
  induction fuel with
  | zero =>
    intro call offset retry_count batch res hdo hbl hol hres
    simp [fetch_batch_pnl_aux] at hres
  | succ fuel ih =>
    intro call offset retry_count batch res hdo hbl hol hres
    rw [fetch_batch_pnl_aux] at hres
    cases hresp : resp call with
    | ok data =>
      rw [hresp] at hres
      have hdata := hpages call data hresp
      by_cases hd : data = []
      · simp only [if_pos hd] at hres
        injection hres with hres2
        subst hres2
        omega
      · simp only [if_neg hd] at hres
        by_cases hshort : data.length < limit
        · simp only [if_pos hshort] at hres
          injection hres with hres2
          subst hres2
          simp only [List.length_append]
          omega
        · simp only [if_neg hshort] at hres
          by_cases hcap : 10000 ≤ offset + limit
          · simp only [if_pos hcap] at hres
            injection hres with hres2
            subst hres2
            simp only [List.length_append]
            omega
          · simp only [if_neg hcap] at hres
            refine ih (call + 1) (offset + limit) 0 (batch ++ data) res
              (Dvd.dvd.add hdo (dvd_refl limit)) ?_ ?_ hres
            · simp only [List.length_append]
              omega
            · have hdvd2 : limit ∣ (offset + limit) := Dvd.dvd.add hdo (dvd_refl limit)
              have hlt : offset + limit < 10000 := by omega
              have hsub : limit ∣ (10000 - (offset + limit)) :=
                Nat.dvd_sub' hdvd hdvd2
              have hpos : 0 < 10000 - (offset + limit) := by omega
              have := Nat.le_of_dvd hpos hsub
              omega
    | badBody =>
      rw [hresp] at hres
      injection hres with hres2
      subst hres2
      omega
    | rateLimited =>
      rw [hresp] at hres
      by_cases hbudget : max_retries ≤ retry_count + 1
      · simp only [if_pos hbudget] at hres
        injection hres with hres2
        subst hres2
        omega
      · simp only [if_neg hbudget] at hres
        exact ih _ _ _ _ _ hdo hbl hol hres
    | httpStatus code =>
      rw [hresp] at hres
      by_cases hfatal : code = 400 ∨ code = 401 ∨ code = 403 ∨ code = 404
      · simp only [if_pos hfatal] at hres
        injection hres with hres2
        subst hres2
        omega
      · simp only [if_neg hfatal] at hres
        by_cases hbudget : max_retries ≤ retry_count + 1
        · simp only [if_pos hbudget] at hres
          injection hres with hres2
          subst hres2
          omega
        · simp only [if_neg hbudget] at hres
          exact ih _ _ _ _ _ hdo hbl hol hres
    | exn =>
      rw [hresp] at hres
      by_cases hbudget : max_retries ≤ retry_count + 1
      · simp only [if_pos hbudget] at hres
        injection hres with hres2
        subst hres2
        omega
      · simp only [if_neg hbudget] at hres
        exact ih _ _ _ _ _ hdo hbl hol hres

/-- C8 (counterexample to the claim as stated): the 10,000 cap bounds the
offset, not the collected records.  With the default page limit of 25, a
first 200 page holding 10,026 records is accepted whole (it is not
shorter than the limit, so pagination continues and the offset only
advances by 25), and the next, empty page ends the batch with 10,026
collected records - more than 10,000. -/
theorem fetch_batch_pnl_counterexample :
    fetch_batch_pnl
        (fun n => if n = 0 then PnlResp.ok (List.replicate 10026 ⟨0, 0⟩)
          else PnlResp.ok []) 25 5 3 =
      some (List.replicate 10026 ⟨0, 0⟩) ∧
    10000 < (List.replicate 10026 (⟨0, 0⟩ : PnlRecord)).length := by
  constructor
  · rw [fetch_batch_pnl, fetch_batch_pnl_aux]
    norm_num
    rw [fetch_batch_pnl_aux]
    norm_num
  · rw [List.length_replicate]
    norm_num

/-- C8 (amended): for every response sequence the `_fetch_batch_pnl`
loop terminates - explicit fuel
`10000·(max_retries+1) + max_retries + 1` always suffices when the page
limit is positive; provided additionally that no 200 page carries more
records than the requested limit and the limit divides 10,000 (the
default limit 25 does), the batch collects at most 10,000 records;
a status in the fatal set {400, 401, 403, 404} aborts the batch
immediately with the records collected so far; a 429 is retried while
the retry budget lasts and aborts the batch once it is exhausted. -/
theorem fetch_batch_pnl_amended (resp : ℕ → PnlResp) (limit max_retries : ℕ) :
    (0 < limit →
      (fetch_batch_pnl resp limit max_retries
        (10000 * (max_retries + 1) + max_retries + 1)).isSome = true) ∧
    ((∀ n d, resp n = PnlResp.ok d → d.length ≤ limit) → limit ∣ 10000 →
      ∀ fuel res, fetch_batch_pnl resp limit max_retries fuel = some res →
        res.length ≤ 10000) ∧
    (∀ call offset retry_count batch fuel code,
      resp call = PnlResp.httpStatus code →
      (code = 400 ∨ code = 401 ∨ code = 403 ∨ code = 404) →
      fetch_batch_pnl_aux resp limit max_retries call offset retry_count batch
        (fuel + 1) = some batch) ∧
    (∀ call offset retry_count batch fuel,
      resp call = PnlResp.rateLimited → retry_count + 1 < max_retries →
      fetch_batch_pnl_aux resp limit max_retries call offset retry_count batch
        (fuel + 1) =
      fetch_batch_pnl_aux resp limit max_retries (call + 1) offset
        (retry_count + 1) batch fuel) ∧
    (∀ call offset retry_count batch fuel,
      resp call = PnlResp.rateLimited → max_retries ≤ retry_count + 1 →
      fetch_batch_pnl_aux resp limit max_retries call offset retry_count batch
        (fuel + 1) = some batch) := by
  refine ⟨?_, ?_, ?_, ?_, ?_⟩
  · intro hl
    exact fetch_batch_pnl_aux_terminates resp limit max_retries hl _ 0 0 0 []
      (by set a := (10000 - 0) * (max_retries + 1) with ha; omega)
  · intro hpages hdvd fuel res hres
    have hlim : limit ≤ 10000 := by
      rcases Nat.eq_zero_or_pos limit with h0 | hpos
      · omega
      · exact Nat.le_of_dvd (by norm_num) hdvd
    exact fetch_batch_pnl_aux_bound resp limit max_retries hpages hdvd fuel
      0 0 0 [] res (Dvd.intro 0 rfl) (by simp) (by omega) hres
  · intro call offset retry_count batch fuel code hresp hfatal
    rw [fetch_batch_pnl_aux, hresp]
    simp only [if_pos hfatal]
  · intro call offset retry_count batch fuel hresp hbudget
    rw [fetch_batch_pnl_aux, hresp]
    simp only [if_neg (by omega : ¬max_retries ≤ retry_count + 1)]
  · intro call offset retry_count batch fuel hresp hbudget
    rw [fetch_batch_pnl_aux, hresp]
    simp only [if_pos hbudget]

/-- C8 (witness): a permanently-404 endpoint aborts on the first page
with an empty batch, and the default-limit fetch against it terminates
within the explicit fuel bound. -/
theorem fetch_batch_pnl_amended_witness :
    fetch_batch_pnl_aux (fun _ => PnlResp.httpStatus 404) 25 5 0 0 0 [] (3 + 1) =
      some [] ∧
    (fetch_batch_pnl (fun _ => PnlResp.httpStatus 404) 25 5
      (10000 * (5 + 1) + 5 + 1)).isSome = true := by
  constructor
  · exact (fetch_batch_pnl_amended (fun _ => PnlResp.httpStatus 404) 25 5).2.2.1
      0 0 0 [] 3 404 rfl (by omega)
  · exact (fetch_batch_pnl_amended (fun _ => PnlResp.httpStatus 404) 25 5).1
      (by omega)

/-! ## C9: backfill of missing condition ids -/

/-- Membership in the fold of `fetch_missing` over the missing ids with
an arbitrary initial accumulator. -/
theorem fetch_missing_fold_mem (resps : ℕ → ℕ → MissingResp) (fuel : ℕ) :
    ∀ (missing : List ℕ) (acc : List PnlRecord) (r : PnlRecord),
      (r ∈ missing.foldl
        (fun additional_data condition_id =>
          let condition_data :=
            fetch_missing_single (resps condition_id) 0 0 [] fuel
          if condition_data ≠ [] then additional_data ++ condition_data
          else additional_data) acc) ↔
      (r ∈ acc ∨ ∃ i ∈ missing,
        r ∈ fetch_missing_single (resps i) 0 0 [] fuel) := by
  intro missing
  induction missing with
  | nil => intro acc r; simp
  | cons m ms ih =>
    intro acc r
    rw [List.foldl_cons, ih]
    by_cases hcd : fetch_missing_single (resps m) 0 0 [] fuel = []
    · simp only [hcd]
      simp [hcd]
    · simp only [if_pos (by simpa using hcd)]
      simp only [List.mem_append, List.mem_cons]
      constructor
      · rintro ((h | h) | h)
        · exact Or.inl h
        · exact Or.inr ⟨m, Or.inl rfl, h⟩
        · obtain ⟨i, hi, hri⟩ := h
          exact Or.inr ⟨i, Or.inr hi, hri⟩
      · rintro (h | ⟨i, (rfl | hi), hri⟩)
        · exact Or.inl (Or.inl h)
        · exact Or.inl (Or.inr hri)
        · exact Or.inr ⟨i, hi, hri⟩

/-- Membership in `fetch_missing`: a record is recovered exactly when the
single-id pager of some missing id yields it. -/
theorem fetch_missing_mem (resps : ℕ → ℕ → MissingResp) (fuel : ℕ)
    (missing : List ℕ) (r : PnlRecord) :
    r ∈ fetch_missing resps missing fuel ↔
      ∃ i ∈ missing, r ∈ fetch_missing_single (resps i) 0 0 [] fuel := by
  rw [fetch_missing]
  rw [fetch_missing_fold_mem]
  simp

/-- C9 (counterexample to the claim as stated): when the batch result is
empty, the backfill is skipped entirely.  Here the single queried id 1
has a matching record (the single-id pager recovers it), yet the union
returned by `fetch_positions_from_rest` is empty because the
`if not df_rest.empty` guard suppresses the backfill. -/
theorem fetch_positions_from_rest_counterexample :
    fetch_positions_from_rest (fun _ => []) (fun _ _ => MissingResp.ok [⟨1, 0⟩])
      [⟨some 1⟩] 5 = [] ∧
    fetch_missing_single (fun _ => MissingResp.ok [⟨1, 0⟩]) 0 0 [] 5 =
      [⟨1, 0⟩] := by
  constructor
  · rfl
  · rfl

/-- C9 (amended): provided the batch result is non-empty - the claim's
"including an empty batch result" does not hold, since an empty batch
result skips the backfill - and the single-id pager only returns records
of the id it was asked for, `fetch_positions_from_rest` merges batch and
backfill so that every queried condition id appearing in the batch
result or recoverable by its single-id fetch is represented in the
output, while an id with no batch record and no recoverable record
remains absent without error. -/
theorem fetch_positions_from_rest_amended (batch : List ℕ → List PnlRecord)
    (resps : ℕ → ℕ → MissingResp) (positions : List SubgraphPosition)
    (fuel : ℕ)
    (hbatch : batch ((positions.filterMap SubgraphPosition.conditionId).dedup) ≠ [])
    (hsf : ∀ i r, r ∈ fetch_missing_single (resps i) 0 0 [] fuel →
      r.conditionId = i) :
    (∀ i ∈ (positions.filterMap SubgraphPosition.conditionId).dedup,
      ((∃ r ∈ batch ((positions.filterMap SubgraphPosition.conditionId).dedup),
          r.conditionId = i) ∨
        fetch_missing_single (resps i) 0 0 [] fuel ≠ []) →
      ∃ r ∈ fetch_positions_from_rest batch resps positions fuel,
        r.conditionId = i) ∧
    (∀ i,
      (∀ r ∈ batch ((positions.filterMap SubgraphPosition.conditionId).dedup),
        r.conditionId ≠ i) →
      fetch_missing_single (resps i) 0 0 [] fuel = [] →
      ∀ r ∈ fetch_positions_from_rest batch resps positions fuel,
        r.conditionId ≠ i) := by
  have hout : fetch_positions_from_rest batch resps positions fuel =
      (let unique_condition_ids :=
        (positions.filterMap SubgraphPosition.conditionId).dedup
      let df_rest := batch unique_condition_ids
      let found := df_rest.map PnlRecord.conditionId
      let missing := unique_condition_ids.filter (fun i => i ∉ found)
      if missing ≠ [] then df_rest ++ fetch_missing resps missing fuel
      else df_rest) := by
    rw [fetch_positions_from_rest]
    simp only [if_pos (by simpa using hbatch)]
  constructor
  · intro i hi hcase
    rw [hout]
    simp only []
    by_cases hfound : ∃ r ∈ batch
        ((positions.filterMap SubgraphPosition.conditionId).dedup),
        r.conditionId = i
    · obtain ⟨r, hr, hri⟩ := hfound
      by_cases hmiss :
          ((positions.filterMap SubgraphPosition.conditionId).dedup).filter
            (fun j => j ∉ (batch
              ((positions.filterMap SubgraphPosition.conditionId).dedup)).map
                PnlRecord.conditionId) ≠ []
      · rw [if_pos (by simpa using hmiss)]
        exact ⟨r, List.mem_append_left _ hr, hri⟩
      · rw [if_neg (by simpa using hmiss)]
        exact ⟨r, hr, hri⟩
    · have hsingle : fetch_missing_single (resps i) 0 0 [] fuel ≠ [] := by
        rcases hcase with h | h
        · exact absurd h hfound
        · exact h
      have hinotfound : i ∉ (batch
          ((positions.filterMap SubgraphPosition.conditionId).dedup)).map
            PnlRecord.conditionId := by
        intro hmem
        obtain ⟨r, hr, hri⟩ := List.mem_map.mp hmem
        exact hfound ⟨r, hr, hri⟩
      have himiss : i ∈ ((positions.filterMap SubgraphPosition.conditionId).dedup).filter
          (fun j => j ∉ (batch
            ((positions.filterMap SubgraphPosition.conditionId).dedup)).map
              PnlRecord.conditionId) :=
        List.mem_filter.mpr ⟨hi, by simpa using hinotfound⟩
      rw [if_pos (by simpa using List.ne_nil_of_mem himiss)]
      obtain ⟨r0, hr0⟩ := List.exists_mem_of_ne_nil _ hsingle
      refine ⟨r0, List.mem_append_right _ ?_, hsf i r0 hr0⟩
      exact (fetch_missing_mem resps fuel _ r0).mpr ⟨i, himiss, hr0⟩
  · intro i hnone hempty r hr hri
    rw [hout] at hr
    simp only [] at hr
    by_cases hmiss :
        ((positions.filterMap SubgraphPosition.conditionId).dedup).filter
          (fun j => j ∉ (batch
            ((positions.filterMap SubgraphPosition.conditionId).dedup)).map
              PnlRecord.conditionId) ≠ []
    · rw [if_pos (by simpa using hmiss)] at hr
      rcases List.mem_append.mp hr with h | h
      · exact hnone r h hri
      · obtain ⟨j, hj, hrj⟩ := (fetch_missing_mem resps fuel _ r).mp h
        have hji : j = i := by rw [← hsf j r hrj, hri]
        subst hji
        rw [hempty] at hrj
        simp at hrj
    · rw [if_neg (by simpa using hmiss)] at hr
      exact hnone r hr hri

/-- C9 (witness): with a non-empty batch result that covers id 1 but
omits id 2, the backfill recovers id 2's record, so the output
represents id 2. -/
theorem fetch_positions_from_rest_amended_witness :
    ∃ r ∈ fetch_positions_from_rest (fun _ => [⟨1, 99⟩])
        (fun i _ => MissingResp.ok [⟨i, 0⟩]) [⟨some 1⟩, ⟨some 2⟩] 3,
      r.conditionId = 2 := by
  refine (fetch_positions_from_rest_amended (fun _ => [⟨1, 99⟩])
      (fun i _ => MissingResp.ok [⟨i, 0⟩]) [⟨some 1⟩, ⟨some 2⟩] 3
      (by decide) ?_).1 2 (by decide) (Or.inr (by decide))
  intro i r hr
  have heval : fetch_missing_single
      ((fun i2 _ => MissingResp.ok [(⟨i2, 0⟩ : PnlRecord)] : ℕ → ℕ → MissingResp) i)
      0 0 [] 3 = [(⟨i, 0⟩ : PnlRecord)] := rfl
  rw [heval] at hr
  simp only [List.mem_singleton] at hr
  rw [hr]
